import Mathlib

/-
Verification of the vector_db HNSW index against its specification.

The Rust sources are shallowly embedded below. Machine integers are
modelled as Nat/Int with explicit reduction modulo 2^w where wrap-around
matters; f32 values that appear in the claims are modelled as rationals
(every concrete input used in a theorem below is exactly representable
in f32 and the f32 operations applied to it are exact). Scores compared
through DistanceMetric::cmp_score are modelled as rationals under the
standard order: per the specification cmp_score is the total order
f32::total_cmp for Cosine/DotProduct and its dual for Euclidean/Hamming,
with Ordering::Greater meaning a better score; the dual metrics are the
mirror image and every order-structural statement below transfers.
-/

namespace VDB

/-- Truncation of a rational toward zero, the semantics of Rust's
float-to-int `as` cast applied to an in-range value. -/
def ratTrunc (x : ℚ) : ℤ := if 0 ≤ x then ⌊x⌋ else ⌈x⌉

/-- Rounding half away from zero, the semantics of Rust's f32::round,
used only to state the specification's version of quantization. -/
def ratRound (x : ℚ) : ℤ := if 0 ≤ x then ⌊x + 1/2⌋ else ⌈x - 1/2⌉

/-- Semantics of f32::clamp(lo, hi) for lo ≤ hi. -/
def clampQ (lo hi x : ℚ) : ℚ := max lo (min hi x)

/-! Quantization (storage.rs, QuantVec::new_at lines 54-96). -/

/-- SignedByte per-component quantization, from storage.rs line 70:
`(dim * 127.0).clamp(-128.0, 127.0) as i8` (clamp then truncating cast). -/
def sbQuant (x : ℚ) : ℤ := ratTrunc (clampQ (-128) 127 (x * 127))

/-- UnsignedByte per-component quantization, from storage.rs line 77:
`(dim * 255.0).clamp(0.0, 255.0) as u8`. -/
def ubQuant (x : ℚ) : ℤ := ratTrunc (clampQ 0 255 (x * 255))

/-- Specification wording of SignedByte quantization:
`clamp(round(x × 127), -128, 127)`. Stated only to compare with the
implementation. -/
def sbQuantSpec (x : ℚ) : ℤ := max (-128) (min 127 (ratRound (x * 127)))

/-- Specification wording of UnsignedByte quantization:
`clamp(round(x × 255), 0, 255)`. -/
def ubQuantSpec (x : ℚ) : ℤ := max 0 (min 255 (ratRound (x * 255)))

/-! Atomic RNG (random.rs lines 36-46). -/

/-- LCG multiplier constant from random.rs line 39. -/
def rngMult : ℕ := 6364136223846793005

/-- AtomicRng::next_u64 (random.rs lines 37-45): the stored state is
advanced by fetch_add(1) and the returned value is
old.wrapping_mul(MULTIPLIER).wrapping_add(1). Returns (value, new state). -/
def nextU64 (s : ℕ) : ℕ × ℕ := ((s * rngMult + 1) % 2 ^ 64, (s + 1) % 2 ^ 64)

/-- State of the RNG before the (n+1)-st call, starting from a seed. -/
def rngState (seed : ℕ) : ℕ → ℕ
  | 0 => seed % 2 ^ 64
  | n + 1 => (nextU64 (rngState seed n)).2

/-- Value returned by the (n+1)-st call of next_u64. -/
def rngValue (seed n : ℕ) : ℕ := (nextU64 (rngState seed n)).1

/-- Seed used by Graph::new (graph.rs line 95: AtomicRng::new(42)). -/
def graphRngSeed : ℕ := 42

/-! Arena destruction (arena.rs: clear lines 198-213, Drop lines 325-339).
Both iterate the chunk vector in order and call drop_range, which drops
slots 0..to_drop of the chunk, with to_drop = min remaining CHUNK_SIZE
and CHUNK_SIZE = 1024 (arena.rs line 13). -/

/-- Destruction order of the loop shared by Arena::clear and Drop:
the global indices of the records destroyed, in order. The first
argument is fuel (the loop runs at most `remaining` times since each
iteration that drops anything drops at least one slot). -/
def dropSeqF : ℕ → ℕ → ℕ → List ℕ
  | 0, _, _ => []
  | fuel + 1, ci, remaining =>
    if remaining = 0 then []
    else
      let toDrop := min remaining 1024
      (List.range toDrop).map (fun o => ci * 1024 + o) ++
        dropSeqF fuel (ci + 1) (remaining - toDrop)

/-- Destruction order of Arena::clear / Drop over `n` live records. -/
def clearDropOrder (n : ℕ) : List ℕ := dropSeqF n 0 n

/-- Observable counter state of an Arena. -/
structure ArenaSt where
  nextIndex : ℕ

/-- Arena::clear (arena.rs 198-213): destroys the live records in the
order given by clearDropOrder, then resets the counter to 0. Returns
the new state together with the destruction order. -/
def arenaClear (a : ArenaSt) : ArenaSt × List ℕ :=
  (⟨0⟩, clearDropOrder a.nextIndex)

/-- Arena::len (arena.rs 303-305). -/
def arenaLen (a : ArenaSt) : ℕ := a.nextIndex

set_option maxRecDepth 4000 in
theorem dropSeqF_eq_range (fuel : ℕ) : ∀ r ci, r ≤ fuel →
    dropSeqF fuel ci r = (List.range r).map (fun o => ci * 1024 + o) := by
  induction fuel with
  | zero =>
    intro r ci hr
    interval_cases r
    simp [dropSeqF]
  | succ fuel ih =>
    intro r ci hr
    rcases Nat.eq_zero_or_pos r with h0 | hpos
    · subst h0; simp [dropSeqF]
    · have hne : r ≠ 0 := Nat.pos_iff_ne_zero.mp hpos
      rw [dropSeqF, if_neg hne]
      dsimp only
      have hmin_le : min r 1024 ≤ r := Nat.min_le_left r 1024
      have hrec := ih (r - min r 1024) (ci + 1) (by omega)
      rw [hrec]
      have key : ∀ t s : ℕ, (List.range (t + s)).map (fun o => ci * 1024 + o) =
          (List.range t).map (fun o => ci * 1024 + o) ++
            (List.range s).map (fun o => ci * 1024 + (t + o)) := by
        intro t s
        rw [List.range_add, List.map_append, List.map_map]
        rfl
      have hkey := key (min r 1024) (r - min r 1024)
      have hsplit : min r 1024 + (r - min r 1024) = r := by omega
      rw [hsplit] at hkey
      rw [hkey]
      congr 1
      rcases Nat.le_total r 1024 with hle | hge
      · have hm : min r 1024 = r := by omega
        rw [hm]
        have hz : r - r = 0 := by omega
        rw [hz]
        simp
      · have hm : min r 1024 = 1024 := by omega
        rw [hm]
        apply List.map_congr_left
        intro o _
        ring

/-- Truncation toward zero stays within integer bounds that contain the value. -/
theorem ratTrunc_bounds (lo hi : ℤ) (x : ℚ) (hlo : (lo : ℚ) ≤ x) (hhi : x ≤ (hi : ℚ)) :
    lo ≤ ratTrunc x ∧ ratTrunc x ≤ hi := by
  unfold ratTrunc
  split
  · refine ⟨?_, ?_⟩
    · have := Int.floor_le_floor hlo
      simpa using this
    · have := Int.floor_le_floor hhi
      simpa using this
  · refine ⟨?_, ?_⟩
    · have := Int.ceil_le_ceil hlo
      simpa using this
    · have := Int.ceil_le_ceil hhi
      simpa using this

/-- C9 counterexample: with two live records the destruction order of
Arena::clear / Drop is [0, 1] (forward allocation order), not the
reverse allocation order [1, 0] the claim states. -/
theorem arena_clear_order_not_reverse :
    (arenaClear ⟨2⟩).2 = [0, 1] ∧ (arenaClear ⟨2⟩).2 ≠ (List.range 2).reverse := by
  decide

/-- C9 (amended): Arena::clear (and the identical loop in Drop) runs the
destructor of every live record exactly once, in forward allocation
order (the destruction sequence is exactly [0, 1, ..., len−1]), and
afterwards len() is zero. -/
theorem arena_clear_forward_order (a : ArenaSt) :
    (arenaClear a).2 = List.range (arenaLen a) ∧ arenaLen (arenaClear a).1 = 0 := by
  constructor
  · show clearDropOrder a.nextIndex = List.range a.nextIndex
    rw [clearDropOrder, dropSeqF_eq_range a.nextIndex a.nextIndex 0 (le_refl _)]
    simp
  · rfl

theorem rngState_eq (seed : ℕ) : ∀ n, rngState seed n = (seed + n) % 2 ^ 64 := by
  intro n
  induction n with
  | zero => simp [rngState]
  | succ n ih =>
    show (nextU64 (rngState seed n)).2 = (seed + (n + 1)) % 2 ^ 64
    rw [ih]
    show ((seed + n) % 2 ^ 64 + 1) % 2 ^ 64 = (seed + (n + 1)) % 2 ^ 64
    have hw : (2 : ℕ) ^ 64 = 18446744073709551616 := by norm_num
    rw [hw]
    omega

/-- C6 counterexample: the claim says the first value returned with seed
42 is the pre-update state 42; the code returns
(42 × 6364136223846793005 + 1) mod 2^64 instead. -/
theorem rng_first_value_ne_seed : rngValue 42 0 ≠ 42 := by decide

/-- C6 (amended): the n-th value returned by AtomicRng::next_u64 from
seed s is ((s + n) mod 2^64) × 6364136223846793005 + 1, reduced mod
2^64; the stored state advances by +1 per call (fetch_add), and
Graph::new seeds the generator with 42. -/
theorem rng_value_formula (seed n : ℕ) :
    rngValue seed n = (((seed + n) % 2 ^ 64) * rngMult + 1) % 2 ^ 64 ∧
      graphRngSeed = 42 := by
  refine ⟨?_, rfl⟩
  rw [rngValue, rngState_eq]
  rfl

theorem ratTrunc_intCast (z : ℤ) : ratTrunc (z : ℚ) = z := by
  rw [ratTrunc]
  split <;> simp

theorem le_clampQ (lo hi x : ℚ) : lo ≤ clampQ lo hi x := le_max_left _ _

theorem clampQ_le (lo hi x : ℚ) (h : lo ≤ hi) : clampQ lo hi x ≤ hi :=
  max_le h (min_le_left _ _)

theorem sbQuant_one : sbQuant 1 = 127 := by
  have h : clampQ (-128) 127 ((1 : ℚ) * 127) = ((127 : ℤ) : ℚ) := by
    rw [clampQ]
    norm_num [min_def, max_def]
  rw [sbQuant, h, ratTrunc_intCast]

theorem sbQuant_negOne : sbQuant (-1) = -127 := by
  have h : clampQ (-128) 127 ((-1 : ℚ) * 127) = ((-127 : ℤ) : ℚ) := by
    rw [clampQ]
    norm_num [min_def, max_def]
  rw [sbQuant, h, ratTrunc_intCast]

theorem sbQuant_zero : sbQuant 0 = 0 := by
  have h : clampQ (-128) 127 ((0 : ℚ) * 127) = ((0 : ℤ) : ℚ) := by
    rw [clampQ]
    norm_num [min_def, max_def]
  rw [sbQuant, h, ratTrunc_intCast]

theorem ubQuant_one : ubQuant 1 = 255 := by
  have h : clampQ 0 255 ((1 : ℚ) * 255) = ((255 : ℤ) : ℚ) := by
    rw [clampQ]
    norm_num [min_def, max_def]
  rw [ubQuant, h, ratTrunc_intCast]

theorem ubQuant_negOne : ubQuant (-1) = 0 := by
  have h : clampQ 0 255 ((-1 : ℚ) * 255) = ((0 : ℤ) : ℚ) := by
    rw [clampQ]
    norm_num [min_def, max_def]
  rw [ubQuant, h, ratTrunc_intCast]

theorem ubQuant_zero : ubQuant 0 = 0 := by
  have h : clampQ 0 255 ((0 : ℚ) * 255) = ((0 : ℤ) : ℚ) := by
    rw [clampQ]
    norm_num [min_def, max_def]
  rw [ubQuant, h, ratTrunc_intCast]

/-- C5 counterexample: at the raw component x = 0.5 (both 0.5 and
0.5 × 127 = 63.5 are exact in f32) the SignedByte quantizer stores
trunc(63.5) = 63, while the claim's formula clamp(round(0.5 × 127))
gives 64. -/
theorem sb_quant_not_rounded : sbQuant (1 / 2) = 63 ∧ sbQuantSpec (1 / 2) = 64 := by
  constructor
  · have h : clampQ (-128) 127 ((1 / 2 : ℚ) * 127) = 127 / 2 := by
      rw [clampQ]
      norm_num [min_def, max_def]
    rw [sbQuant, h, ratTrunc, if_pos (by norm_num)]
    rw [Int.floor_eq_iff]
    constructor <;> norm_num
  · have h : ratRound ((1 / 2 : ℚ) * 127) = 64 := by
      rw [ratRound, if_pos (by norm_num)]
      rw [Int.floor_eq_iff]
      constructor <;> norm_num
    rw [sbQuantSpec, h]
    norm_num [min_def, max_def]

/-- C5 (amended): quantization stores clamp(x × 127, −128, 127)
truncated toward zero (Rust `as i8`/`as u8` cast semantics, not
rounding) under SignedByte, and clamp(x × 255, 0, 255) truncated under
UnsignedByte; every stored value lies in the target range, and the
boundary vector [1, −1, 0] still yields [127, −127, 0] under SignedByte
and [255, 0, 0] under UnsignedByte. -/
theorem quantize_bounds_and_boundary :
    (∀ x : ℚ, (-128 ≤ sbQuant x ∧ sbQuant x ≤ 127) ∧
      (0 ≤ ubQuant x ∧ ubQuant x ≤ 255)) ∧
    ([1, -1, 0] : List ℚ).map sbQuant = [127, -127, 0] ∧
    ([1, -1, 0] : List ℚ).map ubQuant = [255, 0, 0] := by
  refine ⟨?_, ?_, ?_⟩
  · intro x
    constructor
    · apply ratTrunc_bounds
      · push_cast
        exact le_clampQ _ _ _
      · push_cast
        exact clampQ_le _ _ _ (by norm_num)
    · apply ratTrunc_bounds
      · push_cast
        exact le_clampQ _ _ _
      · push_cast
        exact clampQ_le _ _ _ (by norm_num)
  · simp only [List.map_cons, List.map_nil]
    rw [sbQuant_one, sbQuant_negOne, sbQuant_zero]
  · simp only [List.map_cons, List.map_nil]
    rw [ubQuant_one, ubQuant_negOne, ubQuant_zero]

/-! Fixed visited set (fixedset.rs). -/

/-- next_pow2_u16 (fixedset.rs lines 1-12): bit-smearing round-up to the
next power of two of a u16 (inputs are < 2^16). -/
def next_pow2_u16 (x : ℕ) : ℕ :=
  if x = 0 then 1
  else
    let x1 := x - 1
    let x2 := x1 ||| (x1 >>> 1)
    let x3 := x2 ||| (x2 >>> 2)
    let x4 := x3 ||| (x3 >>> 4)
    let x5 := x4 ||| (x4 >>> 8)
    x5 + 1

/-- FixedSet (fixedset.rs lines 14-20): an array of u64 bucket words.
The bucket count is next_pow2_u16 of the fan-out parameter M. -/
structure FixedSet where
  buckets : List ℕ
deriving DecidableEq

/-- FixedSet::new (fixedset.rs lines 29-31): zeroed buckets. -/
def FixedSet.emptyS (p : ℕ) : FixedSet := ⟨List.replicate p 0⟩

/-- FixedSet::insert (fixedset.rs lines 34-38): bucket = (v >> 6) & MASK,
bit = v & 0x3f, set that bit; MASK is the bucket count minus one. -/
def FixedSet.insertS (s : FixedSet) (v : ℕ) : FixedSet :=
  let bucket := (v >>> 6) &&& (s.buckets.length - 1)
  let bit := v &&& 63
  ⟨s.buckets.set bucket ((s.buckets.getD bucket 0) ||| (1 <<< bit))⟩

/-- FixedSet::is_member (fixedset.rs lines 41-45). -/
def FixedSet.isMember (s : FixedSet) (v : ℕ) : Bool :=
  let bucket := (v >>> 6) &&& (s.buckets.length - 1)
  let bit := v &&& 63
  ((s.buckets.getD bucket 0) &&& (1 <<< bit)) != 0

theorem FixedSet.length_insertS (s : FixedSet) (v : ℕ) :
    (s.insertS v).buckets.length = s.buckets.length := by
  simp [FixedSet.insertS]

theorem word_testBit_iff (w b : ℕ) : ((w &&& (1 <<< b)) != 0) = w.testBit b := by
  rw [Nat.one_shiftLeft, Nat.and_two_pow]
  cases h : w.testBit b
  · simp [h]
  · simp only [h, Bool.toNat_true, one_mul, bne_iff_ne, ne_eq]
    simp [Nat.pos_iff_ne_zero.mp (Nat.two_pow_pos b)]

theorem bucket_eq_div_mod (v k : ℕ) : (v >>> 6) &&& (2 ^ k - 1) = v / 64 % 2 ^ k := by
  rw [Nat.shiftRight_eq_div_pow, Nat.and_pow_two_sub_one_eq_mod]

theorem bit_eq_mod (v : ℕ) : v &&& 63 = v % 64 := by
  have h : (63 : ℕ) = 2 ^ 6 - 1 := by norm_num
  rw [h, Nat.and_pow_two_sub_one_eq_mod]

theorem mod_mul64_iff (P : ℕ) (x y : ℕ) :
    x % (64 * P) = y % (64 * P) ↔ (x / 64 % P = y / 64 % P ∧ x % 64 = y % 64) := by
  rw [Nat.mod_mul, Nat.mod_mul]
  have h1 : x % 64 < 64 := Nat.mod_lt _ (by norm_num)
  have h2 : y % 64 < 64 := Nat.mod_lt _ (by norm_num)
  omega

theorem isMember_emptyS (p v : ℕ) : (FixedSet.emptyS p).isMember v = false := by
  rw [FixedSet.isMember, FixedSet.emptyS]
  have hz : (List.replicate p (0 : ℕ)).getD ((v >>> 6) &&& (p - 1)) 0 = 0 := by
    rw [List.getD_eq_getElem?_getD, List.getElem?_replicate]
    split <;> rfl
  simp only [List.length_replicate] at hz ⊢
  rw [hz]
  simp

theorem isMember_insertS (s : FixedSet) (k : ℕ) (hlen : s.buckets.length = 2 ^ k)
    (x y : ℕ) :
    (s.insertS x).isMember y =
      (decide (x / 64 % 2 ^ k = y / 64 % 2 ^ k ∧ x % 64 = y % 64) || s.isMember y) := by
  have hP : 0 < 2 ^ k := Nat.pos_pow_of_pos k (by norm_num)
  have hbx : (x >>> 6) &&& (s.buckets.length - 1) = x / 64 % 2 ^ k := by
    rw [hlen, bucket_eq_div_mod]
  have hby : (y >>> 6) &&& (s.buckets.length - 1) = y / 64 % 2 ^ k := by
    rw [hlen, bucket_eq_div_mod]
  have hbxlt : x / 64 % 2 ^ k < s.buckets.length := by
    rw [hlen]
    exact Nat.mod_lt _ hP
  rw [FixedSet.isMember, FixedSet.insertS]
  simp only [List.length_set]
  rw [hby, hbx, word_testBit_iff]
  rcases Decidable.eq_or_ne (y / 64 % 2 ^ k) (x / 64 % 2 ^ k) with hbeq | hbne
  · rw [hbeq]
    rw [List.getD_eq_getElem?_getD, List.getElem?_set_self hbxlt]
    simp only [Option.getD_some]
    rw [Nat.one_shiftLeft, Nat.testBit_lor, Nat.testBit_two_pow]
    rw [FixedSet.isMember, hby, hbeq, word_testBit_iff]
    rw [bit_eq_mod, bit_eq_mod]
    have hx64 : x % 64 < 64 := Nat.mod_lt _ (by norm_num)
    have hy64 : y % 64 < 64 := Nat.mod_lt _ (by norm_num)
    rw [List.getD_eq_getElem?_getD]
    cases hm : (s.buckets.getD (x / 64 % 2 ^ k) 0).testBit (y % 64) <;>
      · simp only [List.getD_eq_getElem?_getD] at hm
        simp [hm, hbeq, Bool.or_comm]
  · rw [List.getD_eq_getElem?_getD, List.getElem?_set_ne (by omega)]
    rw [FixedSet.isMember, hby, word_testBit_iff, List.getD_eq_getElem?_getD]
    simp [hbne.symm]

theorem length_foldl_insertS (xs : List ℕ) (s : FixedSet) :
    (xs.foldl FixedSet.insertS s).buckets.length = s.buckets.length := by
  induction xs generalizing s with
  | nil => rfl
  | cons x xs ih => rw [List.foldl_cons, ih, FixedSet.length_insertS]

theorem isMember_foldl (k : ℕ) (xs : List ℕ) (s : FixedSet)
    (hlen : s.buckets.length = 2 ^ k) (y : ℕ) :
    ((xs.foldl FixedSet.insertS s).isMember y = true) ↔
      ((∃ x ∈ xs, x % (64 * 2 ^ k) = y % (64 * 2 ^ k)) ∨ s.isMember y = true) := by
  induction xs generalizing s with
  | nil => simp
  | cons x xs ih =>
    rw [List.foldl_cons, ih (s.insertS x) (by rw [FixedSet.length_insertS, hlen])]
    rw [isMember_insertS s k hlen x y]
    constructor
    · rintro (⟨z, hz, he⟩ | hm)
      · exact Or.inl ⟨z, List.mem_cons_of_mem _ hz, he⟩
      · rcases Bool.or_eq_true_iff.mp hm with hd | hs
        · refine Or.inl ⟨x, List.mem_cons_self _ _, ?_⟩
          rw [mod_mul64_iff]
          exact of_decide_eq_true hd
        · exact Or.inr hs
    · rintro (⟨z, hz, he⟩ | hs)
      · rcases List.mem_cons.mp hz with rfl | hz2
        · refine Or.inr ?_
          rw [Bool.or_eq_true_iff]
          left
          exact decide_eq_true ((mod_mul64_iff _ _ _).mp he)
        · exact Or.inl ⟨z, hz2, he⟩
      · refine Or.inr ?_
        rw [Bool.or_eq_true_iff]
        exact Or.inr hs

/-- C7 counterexample: with fan-out M = 8 the bucket count is
next_pow2_u16(8) = 8, and the claim's collision rule (congruence modulo
the bitset size 8) says inserting 0 should make 8 a member; the code
masks the bucket index but uses bit v mod 64 inside a 64-bit word, so 8
is not reported as a member. -/
theorem fixedset_collision_not_mod_bucket_count :
    next_pow2_u16 8 = 8 ∧ (8 : ℕ) % 8 = 0 % 8 ∧
      ((FixedSet.emptyS (next_pow2_u16 8)).insertS 0).isMember 8 = false := by
  decide

/-- C7 (amended): after any sequence of inserts into a FixedSet built
for fan-out M (bucket count next_pow2_u16 M = 2^k, each bucket a 64-bit
word), is_member(y) is true exactly when some inserted x is congruent
to y modulo 64 × next_pow2_u16 M (the total number of bits); in
particular is_member(x) holds immediately after insert(x), and distinct
values congruent modulo 64 × next_pow2_u16 M collide as false
positives. -/
theorem fixedset_member_iff (M k : ℕ) (hp : next_pow2_u16 M = 2 ^ k)
    (xs : List ℕ) (y x : ℕ) :
    (((xs.foldl FixedSet.insertS (FixedSet.emptyS (next_pow2_u16 M))).isMember y = true) ↔
      ∃ z ∈ xs, z % (64 * next_pow2_u16 M) = y % (64 * next_pow2_u16 M)) ∧
    (((xs ++ [x]).foldl FixedSet.insertS (FixedSet.emptyS (next_pow2_u16 M))).isMember x
      = true) := by
  have hlen : (FixedSet.emptyS (next_pow2_u16 M)).buckets.length = 2 ^ k := by
    rw [FixedSet.emptyS]
    simp [hp]
  constructor
  · rw [isMember_foldl k xs _ hlen y, hp]
    simp [isMember_emptyS]
  · rw [isMember_foldl k (xs ++ [x]) _ hlen x]
    left
    exact ⟨x, by simp, rfl⟩

/-- Witness for fixedset_member_iff at M = 8 (2^3 buckets): 517 = 512 + 5
collides with the inserted 5 modulo 512, and 9 is a member right after
inserting it. -/
theorem fixedset_member_iff_witness :
    next_pow2_u16 8 = 2 ^ 3 ∧
    (((([5] : List ℕ).foldl FixedSet.insertS
        (FixedSet.emptyS (next_pow2_u16 8))).isMember 517 = true) ↔
      ∃ z ∈ ([5] : List ℕ), z % (64 * next_pow2_u16 8) = 517 % (64 * next_pow2_u16 8)) ∧
    (((([5] : List ℕ) ++ [9]).foldl FixedSet.insertS
        (FixedSet.emptyS (next_pow2_u16 8))).isMember 9 = true) := by
  refine ⟨by decide, (fixedset_member_iff 8 3 (by decide) [5] 517 9).1,
    (fixedset_member_iff 8 3 (by decide) [5] 517 9).2⟩

/-! Neighbor records (node.rs). Scores are the metric Result type; its
Ord instance (metric.rs, the asc variants; the dsc variants are the
mirror image) is the cmp_score total order with Greater meaning better.
Scores are modelled as ℤ under the standard order, and the Result MIN
and MAX constants are the parameters minV and maxV. -/

/-- Neighbors record (node.rs lines 81-91): slots are Option entries of
(node handle, score). -/
structure NeighborsR where
  lowestIndex : ℕ
  lowestScore : ℤ
  neighbors : List (Option (ℕ × ℤ))
deriving DecidableEq

/-- Neighbors::default (node.rs lines 112-118): lowest_index 0,
lowest_score MIN, all slots empty. -/
def defaultNeighbors (m : ℕ) (minV : ℤ) : NeighborsR :=
  ⟨0, minV, List.replicate m none⟩

/-- Downward scan of recompute_lowest_index (node.rs lines 191-210):
iterate i from M−1 down to 0, break with (i, MIN) at the first empty
slot, else track the strict minimum score. -/
def scanLowest (minV : ℤ) (ns : List (Option (ℕ × ℤ))) : ℕ → ℕ × ℤ → ℕ × ℤ
  | 0, acc => acc
  | i + 1, acc =>
    match ns.getD i none with
    | none => (i, minV)
    | some nb =>
      if nb.2 < acc.2 then scanLowest minV ns i (i, nb.2)
      else scanLowest minV ns i acc

/-- recompute_lowest_index (node.rs lines 191-210): scan all slots from
the top starting with (0, MAX). -/
def recomputeLowest (minV maxV : ℤ) (ns : List (Option (ℕ × ℤ))) : ℕ × ℤ :=
  scanLowest minV ns ns.length (0, maxV)

/-- Neighbors::insert_neighbor (node.rs lines 128-159): look at the slot
at lowest_index; if occupied and the new score is greater, replace it
and recompute (the evicted node is returned so the caller's best-effort
cross-record remove_neighbor can be applied to it); if occupied and not
greater, discard; if empty, write and recompute. -/
def insertNeighborR (minV maxV : ℤ) (rec : NeighborsR) (nb : ℕ × ℤ) :
    NeighborsR × Bool × Option ℕ :=
  match rec.neighbors.getD rec.lowestIndex none with
  | some ex =>
    if ex.2 < nb.2 then
      let ns := rec.neighbors.set rec.lowestIndex (some nb)
      let l := recomputeLowest minV maxV ns
      (⟨l.1, l.2, ns⟩, true, some ex.1)
    else (rec, false, none)
  | none =>
    let ns := rec.neighbors.set rec.lowestIndex (some nb)
    let l := recomputeLowest minV maxV ns
    (⟨l.1, l.2, ns⟩, true, none)

/-- Downward scan of remove_neighbor (node.rs lines 161-189): like
recompute's scan but also records the index of the entry whose node
matches the target. -/
def removeScan (minV : ℤ) (ns : List (Option (ℕ × ℤ))) (target : ℕ) :
    ℕ → ℕ × ℤ → Option ℕ → (ℕ × ℤ) × Option ℕ
  | 0, acc, f => (acc, f)
  | i + 1, acc, f =>
    match ns.getD i none with
    | none => ((i, minV), f)
    | some nb =>
      let f2 := if nb.1 = target then some i else f
      if nb.2 < acc.2 then removeScan minV ns target i (i, nb.2) f2
      else removeScan minV ns target i acc f2

/-- Neighbors::remove_neighbor (node.rs lines 161-189): scan (over the
pre-removal slots), then if the target was found clear its slot and
store the scanned (lowest_index, lowest_score). -/
def removeNeighborR (minV maxV : ℤ) (rec : NeighborsR) (target : ℕ) : NeighborsR :=
  let r := removeScan minV rec.neighbors target rec.neighbors.length (0, maxV) none
  match r.2 with
  | some idx => ⟨r.1.1, r.1.2, rec.neighbors.set idx none⟩
  | none => rec

/-- Full-list invariant of a Neighbors record: when every slot is
occupied, every stored score is at least lowest_score under cmp_score
(i.e. compares Equal or Greater), and lowest_score is the score stored
at slot lowest_index. -/
def fullInvR (rec : NeighborsR) : Prop :=
  (∀ os ∈ rec.neighbors, os.isSome = true) →
    ((∀ os ∈ rec.neighbors, rec.lowestScore ≤ ((os.getD (0, 0)).2)) ∧
     (rec.neighbors.getD rec.lowestIndex none).isSome = true ∧
     (((rec.neighbors.getD rec.lowestIndex none).getD (0, 0)).2 = rec.lowestScore))

instance (rec : NeighborsR) : Decidable (fullInvR rec) := by
  unfold fullInvR
  infer_instance

theorem getD_mem_of_lt {α : Type} (ns : List α) (j : ℕ) (hj : j < ns.length) (d : α) :
    ns.getD j d ∈ ns := by
  rw [List.getD_eq_getElem?_getD, List.getElem?_eq_getElem hj]
  simp

theorem scanLowest_spec (minV maxV : ℤ) (ns : List (Option (ℕ × ℤ)))
    (hub : ∀ os ∈ ns, ((os.getD (0, 0)).2) ≤ maxV) (hlen : 1 ≤ ns.length) :
    ∀ i acc, i ≤ ns.length →
    (∀ j, i ≤ j → j < ns.length →
      (ns.getD j none).isSome = true ∧ acc.2 ≤ ((ns.getD j none).getD (0, 0)).2) →
    (acc = (0, maxV) ∨
      (acc.1 < ns.length ∧ (ns.getD acc.1 none).isSome = true ∧
        ((ns.getD acc.1 none).getD (0, 0)).2 = acc.2)) →
    (((∃ j, j < i ∧ ns.getD j none = none) →
       ((scanLowest minV ns i acc).1 < ns.length ∧
        ns.getD (scanLowest minV ns i acc).1 none = none ∧
        (scanLowest minV ns i acc).2 = minV)) ∧
     ((∀ j, j < i → ns.getD j none ≠ none) →
       ((∀ j, j < ns.length → (scanLowest minV ns i acc).2 ≤ ((ns.getD j none).getD (0, 0)).2) ∧
        (scanLowest minV ns i acc).1 < ns.length ∧
        (ns.getD (scanLowest minV ns i acc).1 none).isSome = true ∧
        ((ns.getD (scanLowest minV ns i acc).1 none).getD (0, 0)).2 =
          (scanLowest minV ns i acc).2))) := by
  intro i
  induction i with
  | zero =>
    intro acc _ hproc hanchor
    constructor
    · rintro ⟨j, hj, _⟩
      omega
    · intro _
      rw [scanLowest]
      rcases hanchor with rfl | ⟨h1, h2, h3⟩
      · have h0 := hproc 0 (Nat.zero_le _) hlen
        have hmem := getD_mem_of_lt ns 0 hlen none
        have hle := hub _ hmem
        refine ⟨?_, hlen, h0.1, ?_⟩
        · intro j hj
          exact (hproc j (Nat.zero_le _) hj).2
        · have : ((ns.getD 0 none).getD (0, 0)).2 = maxV := le_antisymm hle h0.2
          simpa using this
      · refine ⟨?_, h1, h2, h3⟩
        intro j hj
        exact (hproc j (Nat.zero_le _) hj).2
  | succ i ih =>
    intro acc hi hproc hanchor
    have hilt : i < ns.length := by omega
    rw [scanLowest]
    cases hc : ns.getD i none with
    | none =>
      constructor
      · intro _
        exact ⟨hilt, hc, rfl⟩
      · intro hall
        exact absurd hc (hall i (Nat.lt_succ_self i))
    | some nb =>
      dsimp only
      have hnb : ((ns.getD i none).getD (0, 0)).2 = nb.2 := by rw [hc]; rfl
      by_cases hlt : nb.2 < acc.2
      · rw [if_pos hlt]
        have hrec := ih (i, nb.2) (by omega) ?_ ?_
        · constructor
          · rintro ⟨j, hj, hjn⟩
            have hji : j ≠ i := fun he => by rw [he, hc] at hjn; exact Option.noConfusion hjn
            exact hrec.1 ⟨j, by omega, hjn⟩
          · intro hall
            exact hrec.2 (fun j hj => hall j (by omega))
        · intro j hij hjlt
          rcases Nat.eq_or_lt_of_le hij with rfl | hgt
          · refine ⟨by rw [hc]; rfl, ?_⟩
            rw [hnb]
          · have hold := hproc j (by omega) hjlt
            exact ⟨hold.1, le_trans (le_of_lt hlt) hold.2⟩
        · right
          refine ⟨hilt, by rw [hc]; rfl, ?_⟩
          rw [hnb]
      · rw [if_neg hlt]
        have hrec := ih acc (by omega) ?_ hanchor
        · constructor
          · rintro ⟨j, hj, hjn⟩
            have hji : j ≠ i := fun he => by rw [he, hc] at hjn; exact Option.noConfusion hjn
            exact hrec.1 ⟨j, by omega, hjn⟩
          · intro hall
            exact hrec.2 (fun j hj => hall j (by omega))
        · intro j hij hjlt
          rcases Nat.eq_or_lt_of_le hij with rfl | hgt
          · refine ⟨by rw [hc]; rfl, ?_⟩
            rw [hnb]
            omega
          · exact hproc j (by omega) hjlt

theorem getD_of_lt {α : Type} (ns : List α) (j : ℕ) (hj : j < ns.length) (d : α) :
    ns.getD j d = ns[j] := by
  rw [List.getD_eq_getElem?_getD, List.getElem?_eq_getElem hj]
  rfl

theorem recomputeLowest_full_spec (minV maxV : ℤ) (ns : List (Option (ℕ × ℤ)))
    (hub : ∀ os ∈ ns, ((os.getD (0, 0)).2) ≤ maxV) (hlen : 1 ≤ ns.length)
    (hfull : ∀ os ∈ ns, os.isSome = true) :
    (∀ j, j < ns.length →
      (recomputeLowest minV maxV ns).2 ≤ ((ns.getD j none).getD (0, 0)).2) ∧
    (recomputeLowest minV maxV ns).1 < ns.length ∧
    (ns.getD (recomputeLowest minV maxV ns).1 none).isSome = true ∧
    ((ns.getD (recomputeLowest minV maxV ns).1 none).getD (0, 0)).2 =
      (recomputeLowest minV maxV ns).2 := by
  have h := scanLowest_spec minV maxV ns hub hlen ns.length (0, maxV) (le_refl _)
    (fun j h1 h2 => absurd h2 (by omega)) (Or.inl rfl)
  refine h.2 ?_
  intro j hj
  have hm := getD_mem_of_lt ns j hj none
  have := hfull _ hm
  intro hne
  rw [hne] at this
  exact Bool.noConfusion this

theorem fullInvR_of_recompute (minV maxV : ℤ) (ns : List (Option (ℕ × ℤ)))
    (hub : ∀ os ∈ ns, ((os.getD (0, 0)).2) ≤ maxV) (hlen : 1 ≤ ns.length) :
    fullInvR ⟨(recomputeLowest minV maxV ns).1, (recomputeLowest minV maxV ns).2, ns⟩ := by
  intro hfull
  have h := recomputeLowest_full_spec minV maxV ns hub hlen hfull
  refine ⟨?_, h.2.2.1, h.2.2.2⟩
  intro os hos
  rcases List.mem_iff_getElem.mp hos with ⟨j, hj, hje⟩
  have hh := h.1 j hj
  rw [getD_of_lt ns j hj none, hje] at hh
  exact hh

/-- Preservation of the full-list invariant by insert_neighbor. -/
theorem insertNeighborR_fullInv (minV maxV : ℤ) (rec : NeighborsR) (nb : ℕ × ℤ)
    (hlen : 1 ≤ rec.neighbors.length)
    (hub : ∀ os ∈ rec.neighbors, ((os.getD (0, 0)).2) ≤ maxV) (hnb : nb.2 ≤ maxV)
    (hpre : fullInvR rec) :
    fullInvR (insertNeighborR minV maxV rec nb).1 := by
  rw [insertNeighborR]
  cases hc : rec.neighbors.getD rec.lowestIndex none with
  | none =>
    dsimp only
    apply fullInvR_of_recompute
    · intro os hos
      rcases List.mem_or_eq_of_mem_set hos with h | h
      · exact hub _ h
      · rw [h]
        exact hnb
    · simpa using hlen
  | some ex =>
    dsimp only
    by_cases hlt : ex.2 < nb.2
    · rw [if_pos hlt]
      dsimp only
      apply fullInvR_of_recompute
      · intro os hos
        rcases List.mem_or_eq_of_mem_set hos with h | h
        · exact hub _ h
        · rw [h]
          exact hnb
      · simpa using hlen
    · rw [if_neg hlt]
      exact hpre

theorem removeScan_found_lt (minV : ℤ) (ns : List (Option (ℕ × ℤ))) (target : ℕ) :
    ∀ i acc f, (∀ idx, f = some idx → idx < ns.length) → i ≤ ns.length →
    ∀ idx, (removeScan minV ns target i acc f).2 = some idx → idx < ns.length := by
  intro i
  induction i with
  | zero =>
    intro acc f hf _ idx h
    rw [removeScan] at h
    exact hf idx h
  | succ i ih =>
    intro acc f hf hi idx h
    rw [removeScan] at h
    rcases hc : ns.getD i none with _ | nb
    · rw [hc] at h
      dsimp only at h
      exact hf idx h
    · rw [hc] at h
      dsimp only at h
      have hf2 : ∀ j, (if nb.1 = target then some i else f) = some j → j < ns.length := by
        intro j hj
        by_cases ht : nb.1 = target
        · rw [if_pos ht] at hj
          cases hj
          omega
        · rw [if_neg ht] at hj
          exact hf j hj
      by_cases hb : nb.2 < acc.2
      · rw [if_pos hb] at h
        exact ih (i, nb.2) _ hf2 (by omega) idx h
      · rw [if_neg hb] at h
        exact ih acc _ hf2 (by omega) idx h

/-- Preservation of the full-list invariant by remove_neighbor: either
nothing changes, or a slot is emptied and the record is no longer full. -/
theorem removeNeighborR_fullInv (minV maxV : ℤ) (rec : NeighborsR) (t : ℕ)
    (hpre : fullInvR rec) : fullInvR (removeNeighborR minV maxV rec t) := by
  rw [removeNeighborR]
  rcases hf : (removeScan minV rec.neighbors t rec.neighbors.length (0, maxV) none).2
    with _ | idx
  · exact hpre
  · dsimp only
    intro hfull
    exfalso
    have hidx : idx < rec.neighbors.length :=
      removeScan_found_lt minV rec.neighbors t rec.neighbors.length (0, maxV) none
        (fun j hj => Option.noConfusion hj) (le_refl _) idx hf
    have hmem : (none : Option (ℕ × ℤ)) ∈ rec.neighbors.set idx none := by
      refine List.mem_iff_getElem?.mpr ⟨idx, ?_⟩
      rw [List.getElem?_set_self (by simpa using hidx)]
    have := hfull none hmem
    exact Bool.noConfusion this

/-! Initial neighbor wiring (graph.rs: create_node lines 155-202 and the
identical create_node0 lines 204-250, modelled once). This source
variant's Neighbors record stores plain entries with a neighbors_full
flag; only the copied prefix of slots is ever initialized, so the
record is modelled by that prefix. -/

/-- Wired record as created by Graph::create_node: lowestScore is none
when the not-full branch leaves the field unwritten. -/
structure NeighborsW where
  neighborsFull : Bool
  lowestIndex : ℕ
  lowestScore : Option ℤ
  neighbors : List (ℕ × ℤ)
deriving DecidableEq

/-- Forward minimum scan of create_node (graph.rs lines 175-184):
for i in 0..m, update (lowest_index, lowest_score) when
cmp_score(score, lowest_score) is Less, starting from (0, max_value). -/
def forwardLowest (maxValue : ℤ) (rs : List (ℕ × ℤ)) : ℕ × ℤ :=
  (List.range rs.length).foldl
    (fun acc i => if (rs.getD i (0, 0)).2 < acc.2 then (i, (rs.getD i (0, 0)).2) else acc)
    (0, maxValue)

/-- Graph::create_node wiring of a fresh record (graph.rs lines 162-190):
copy the search results into the first slots; if the count equals m set
neighbors_full and recompute (lowest_index, lowest_score) by the forward
scan, else store the live count in lowest_index. -/
def createNodeNeighbors (m : ℕ) (maxValue : ℤ) (results : List (ℕ × ℤ)) : NeighborsW :=
  if results.length = m then
    let l := forwardLowest maxValue results
    ⟨true, l.1, some l.2, results⟩
  else
    ⟨false, results.length, none, results⟩

theorem forwardLowest_go (maxValue : ℤ) (rs : List (ℕ × ℤ)) :
    ∀ n, n ≤ rs.length →
    ((∀ j, j < n →
        ((List.range n).foldl (fun acc i =>
          if (rs.getD i (0, 0)).2 < acc.2 then (i, (rs.getD i (0, 0)).2) else acc)
          (0, maxValue)).2 ≤ (rs.getD j (0, 0)).2) ∧
      (((List.range n).foldl (fun acc i =>
          if (rs.getD i (0, 0)).2 < acc.2 then (i, (rs.getD i (0, 0)).2) else acc)
          (0, maxValue)) = (0, maxValue) ∨
        (((List.range n).foldl (fun acc i =>
          if (rs.getD i (0, 0)).2 < acc.2 then (i, (rs.getD i (0, 0)).2) else acc)
          (0, maxValue)).1 < n ∧
        (rs.getD ((List.range n).foldl (fun acc i =>
          if (rs.getD i (0, 0)).2 < acc.2 then (i, (rs.getD i (0, 0)).2) else acc)
          (0, maxValue)).1 (0, 0)).2 =
          ((List.range n).foldl (fun acc i =>
          if (rs.getD i (0, 0)).2 < acc.2 then (i, (rs.getD i (0, 0)).2) else acc)
          (0, maxValue)).2))) := by
  intro n
  induction n with
  | zero =>
    intro _
    exact ⟨fun j hj => absurd hj (by omega), Or.inl rfl⟩
  | succ n ih =>
    intro hn
    have hprev := ih (by omega)
    rw [List.range_succ, List.foldl_append, List.foldl_cons, List.foldl_nil]
    set acc := (List.range n).foldl (fun acc i =>
      if (rs.getD i (0, 0)).2 < acc.2 then (i, (rs.getD i (0, 0)).2) else acc)
      (0, maxValue) with hacc
    by_cases hlt : (rs.getD n (0, 0)).2 < acc.2
    · rw [if_pos hlt]
      constructor
      · intro j hj
        rcases Nat.lt_succ_iff_lt_or_eq.mp hj with hj2 | rfl
        · exact le_trans (le_of_lt hlt) (hprev.1 j hj2)
        · exact le_refl _
      · right
        exact ⟨Nat.lt_succ_self n, rfl⟩
    · rw [if_neg hlt]
      constructor
      · intro j hj
        rcases Nat.lt_succ_iff_lt_or_eq.mp hj with hj2 | rfl
        · exact hprev.1 j hj2
        · omega
      · rcases hprev.2 with h | ⟨h1, h2⟩
        · exact Or.inl h
        · exact Or.inr ⟨by omega, h2⟩

theorem forwardLowest_spec (maxValue : ℤ) (rs : List (ℕ × ℤ))
    (hub : ∀ r ∈ rs, r.2 ≤ maxValue) (hlen : 1 ≤ rs.length) :
    (∀ r ∈ rs, (forwardLowest maxValue rs).2 ≤ r.2) ∧
    (forwardLowest maxValue rs).1 < rs.length ∧
    (rs.getD (forwardLowest maxValue rs).1 (0, 0)).2 = (forwardLowest maxValue rs).2 := by
  have h := forwardLowest_go maxValue rs rs.length (le_refl _)
  have hall : ∀ r ∈ rs, (forwardLowest maxValue rs).2 ≤ r.2 := by
    intro r hr
    rcases List.mem_iff_getElem.mp hr with ⟨j, hj, hje⟩
    have hh := h.1 j hj
    rw [forwardLowest]
    rw [getD_of_lt rs j hj (0, 0), hje] at hh
    exact hh
  refine ⟨hall, ?_⟩
  rcases h.2 with he | ⟨h1, h2⟩
  · have h0 := h.1 0 hlen
    rw [forwardLowest, he]
    dsimp only
    have hm := getD_mem_of_lt rs 0 hlen (0, 0)
    have hle := hub _ hm
    rw [he] at h0
    dsimp only at h0
    exact ⟨hlen, le_antisymm hle h0⟩
  · exact ⟨h1, h2⟩

theorem createNodeNeighbors_spec (m : ℕ) (maxValue : ℤ) (results : List (ℕ × ℤ))
    (hub : ∀ r ∈ results, r.2 ≤ maxValue) :
    (results.length ≠ m →
      (createNodeNeighbors m maxValue results).neighborsFull = false ∧
      (createNodeNeighbors m maxValue results).lowestIndex = results.length ∧
      (createNodeNeighbors m maxValue results).neighbors = results) ∧
    (results.length = m → 1 ≤ m →
      (createNodeNeighbors m maxValue results).neighborsFull = true ∧
      (createNodeNeighbors m maxValue results).lowestIndex < m ∧
      (createNodeNeighbors m maxValue results).neighbors = results ∧
      ∃ ls, (createNodeNeighbors m maxValue results).lowestScore = some ls ∧
        (∀ r ∈ results, ls ≤ r.2) ∧
        (results.getD (createNodeNeighbors m maxValue results).lowestIndex (0, 0)).2 = ls) := by
  constructor
  · intro hne
    rw [createNodeNeighbors, if_neg hne]
    exact ⟨rfl, rfl, rfl⟩
  · intro he hm
    have hlen : 1 ≤ results.length := by omega
    have h := forwardLowest_spec maxValue results hub hlen
    rw [createNodeNeighbors, if_pos he]
    refine ⟨rfl, by dsimp only; omega, rfl, (forwardLowest maxValue results).2, rfl, h.1, h.2.2⟩

/-- C4 counterexample: inserting one neighbor into a fresh (default)
record with m = 3 slots leaves lowest_index = 2, not the live count 1
as the claim requires while the list is not full, and slot 1 inside
the claimed valid prefix [0, lowest_index) is empty: the code's
downward recompute scan points lowest_index at the highest empty slot,
so occupied slots do not form a prefix. -/
theorem insert_breaks_live_count_invariant :
    (insertNeighborR (-1) 1 (defaultNeighbors 3 (-1)) (7, 0)).1.lowestIndex = 2 ∧
    ((insertNeighborR (-1) 1 (defaultNeighbors 3 (-1)) (7, 0)).1.neighbors.countP
      (fun os => os.isSome)) = 1 ∧
    (insertNeighborR (-1) 1 (defaultNeighbors 3 (-1)) (7, 0)).1.neighbors.getD 1 none
      = none := by
  decide

/-- C4 (amended): the initial wiring in create_node / create_node0
establishes the invariant as stated (lowest_index equals the live
count while not full; once full, every slot's score compares Equal or
Greater against lowest_score under cmp_score, and lowest_score is the
score at slot lowest_index). insert_neighbor and remove_neighbor
preserve only the full-list part of the invariant (the record
invariant fullInvR); while the list is not full, lowest_index points
at an empty slot found by the downward scan and need not equal the
live count, and the occupied slots need not form a prefix. Score
hypotheses: every stored score is at most the metric MAX constant. -/
theorem neighbors_record_invariant :
    (∀ (m : ℕ) (maxValue : ℤ) (results : List (ℕ × ℤ)),
      (∀ r ∈ results, r.2 ≤ maxValue) →
      ((results.length ≠ m →
        (createNodeNeighbors m maxValue results).neighborsFull = false ∧
        (createNodeNeighbors m maxValue results).lowestIndex = results.length ∧
        (createNodeNeighbors m maxValue results).neighbors = results) ∧
      (results.length = m → 1 ≤ m →
        (createNodeNeighbors m maxValue results).neighborsFull = true ∧
        (createNodeNeighbors m maxValue results).lowestIndex < m ∧
        (createNodeNeighbors m maxValue results).neighbors = results ∧
        ∃ ls, (createNodeNeighbors m maxValue results).lowestScore = some ls ∧
          (∀ r ∈ results, ls ≤ r.2) ∧
          (results.getD (createNodeNeighbors m maxValue results).lowestIndex (0, 0)).2 = ls))) ∧
    (∀ (minV maxV : ℤ) (rec : NeighborsR) (nb : ℕ × ℤ),
      1 ≤ rec.neighbors.length →
      (∀ os ∈ rec.neighbors, ((os.getD (0, 0)).2) ≤ maxV) → nb.2 ≤ maxV →
      fullInvR rec →
      fullInvR (insertNeighborR minV maxV rec nb).1) ∧
    (∀ (minV maxV : ℤ) (rec : NeighborsR) (t : ℕ),
      fullInvR rec → fullInvR (removeNeighborR minV maxV rec t)) :=
  ⟨fun m maxValue results hub => createNodeNeighbors_spec m maxValue results hub,
   fun minV maxV rec nb hlen hub hnb hpre =>
     insertNeighborR_fullInv minV maxV rec nb hlen hub hnb hpre,
   fun minV maxV rec t hpre => removeNeighborR_fullInv minV maxV rec t hpre⟩

/-- Witness for neighbors_record_invariant: all three parts applied at
concrete records, with every hypothesis discharged by evaluation. -/
theorem neighbors_record_invariant_witness :
    ((createNodeNeighbors 1 1 [(3, 0)]).neighborsFull = true ∧
      (createNodeNeighbors 1 1 [(3, 0)]).lowestIndex < 1 ∧
      (createNodeNeighbors 1 1 [(3, 0)]).neighbors = [(3, 0)] ∧
      ∃ ls, (createNodeNeighbors 1 1 [(3, 0)]).lowestScore = some ls ∧
        (∀ r ∈ [((3 : ℕ), (0 : ℤ))], ls ≤ r.2) ∧
        (([((3 : ℕ), (0 : ℤ))]).getD (createNodeNeighbors 1 1 [(3, 0)]).lowestIndex
          (0, 0)).2 = ls) ∧
    fullInvR (insertNeighborR (-1) 1 ⟨0, 0, [some (1, 0)]⟩ (2, 1)).1 ∧
    fullInvR (removeNeighborR (-1) 1 ⟨0, 0, [some (1, 0)]⟩ 1) := by
  refine ⟨(neighbors_record_invariant.1 1 1 [(3, 0)] (by decide)).2 rfl (by decide),
    neighbors_record_invariant.2.1 (-1) 1 ⟨0, 0, [some (1, 0)]⟩ (2, 1)
      (by decide) (by decide) (by decide) (by decide),
    neighbors_record_invariant.2.2 (-1) 1 ⟨0, 0, [some (1, 0)]⟩ 1 (by decide)⟩

/-! Greedy bounded search (graph.rs: search_level lines 322-388 and the
identical search_level0 lines 390-456, modelled once; the two differ
only in the arena searched and the FixedSet fan-out parameter).
The per-node score function models metric.calculate(query, vec(node))
for the fixed query of one call, as a value under the cmp_score total
order (Greater = better, modelled as the standard order on ℤ); the
adjacency function models the ids yielded by the neighbors() iterator
of the record read under the node's shared lock. -/

/-- Stable insertion sort by a Bool comparator; used to model
`sort_unstable_by(cmp_score)` followed by retention of the first
elements, which is extensionally select_nth_unstable_by + truncate +
sort_unstable_by (Rust leaves the order among cmp-Equal elements
unspecified; for every input used in a theorem below the scores are
distinct, so the result is the unique sorted sequence). -/
def insertSorted {α : Type} (le : α → α → Bool) (a : α) : List α → List α
  | [] => [a]
  | b :: bs => if le a b then a :: b :: bs else b :: insertSorted le a bs

def insSort {α : Type} (le : α → α → Bool) : List α → List α
  | [] => []
  | a :: as => insertSorted le a (insSort le as)

theorem length_insertSorted {α : Type} (le : α → α → Bool) (a : α) (l : List α) :
    (insertSorted le a l).length = l.length + 1 := by
  induction l with
  | nil => rfl
  | cons b bs ih =>
    rw [insertSorted]
    split
    · rfl
    · simp only [List.length_cons, ih]

theorem length_insSort {α : Type} (le : α → α → Bool) (l : List α) :
    (insSort le l).length = l.length := by
  induction l with
  | nil => rfl
  | cons a as ih => rw [insSort, length_insertSorted, ih, List.length_cons]

theorem mem_insertSorted {α : Type} (le : α → α → Bool) (a x : α) (l : List α) :
    x ∈ insertSorted le a l ↔ x = a ∨ x ∈ l := by
  induction l with
  | nil => simp [insertSorted]
  | cons b bs ih =>
    rw [insertSorted]
    split
    · simp [or_comm, or_assoc, List.mem_cons]
    · simp only [List.mem_cons, ih]
      tauto

theorem mem_insSort {α : Type} (le : α → α → Bool) (x : α) (l : List α) :
    x ∈ insSort le l ↔ x ∈ l := by
  induction l with
  | nil => simp [insSort]
  | cons a as ih =>
    rw [insSort, mem_insertSorted, ih, List.mem_cons]

/-- Ascending comparator on scored results: the comparator
`cmp_score(a.score, b.score)` passed to select_nth_unstable_by and
sort_unstable_by in graph.rs lines 376-385. -/
def scoreLe (a b : ℕ × ℤ) : Bool := decide (a.2 ≤ b.2)

/-- Pop of the binary_heap_plus max-heap ordered by cmp_score (graph.rs
lines 330-332, 349): returns a maximal element and the rest. Ties are
unspecified in Rust; this model prefers the earliest-pushed maximal
element (inputs used in concrete theorems have distinct scores). -/
def popMax : List (ℕ × ℤ) → Option ((ℕ × ℤ) × List (ℕ × ℤ))
  | [] => none
  | x :: xs =>
    match popMax xs with
    | none => some (x, [])
    | some (m, rest) => if m.2 ≤ x.2 then some (x, xs) else some (m, x :: rest)

/-- Neighbor expansion of one loop iteration (graph.rs lines 361-373):
for each neighbor id not in the visited set, insert it and push it with
its computed score. -/
def expandNeighbors (score : ℕ → ℤ) (adj : List ℕ) :
    List (ℕ × ℤ) × FixedSet → List (ℕ × ℤ) × FixedSet := fun qs =>
  adj.foldl (fun qs nb =>
    if qs.2.isMember nb then qs
    else (qs.1 ++ [(nb, score nb)], qs.2.insertS nb)) qs

/-- Main loop of search_level (graph.rs lines 349-374): pop the best
candidate; stop if the visit budget ef is exhausted; push the popped
entry into results (unless it is the excluded root); then expand the
neighbor list of `entry_node` — the code reads
`self.nodes_arena[entry_node]` (line 359; line 427 in search_level0),
the original entry node, not the popped candidate. Fuel ef + 1 is
exact: each recursive call increments nodes_visited, which is capped
by ef. -/
def searchGo (adj : ℕ → List ℕ) (score : ℕ → ℤ) (entryNode : ℕ) (ef : ℕ)
    (includeRoot : Bool) :
    ℕ → List (ℕ × ℤ) → List (ℕ × ℤ) → FixedSet → ℕ → List (ℕ × ℤ)
  | 0, _, results, _, _ => results
  | fuel + 1, queue, results, set, visited =>
    match popMax queue with
    | none => results
    | some (entry, queue2) =>
      if ef ≤ visited then results
      else
        let results2 := if includeRoot || (entry.1 != 0) then results ++ [entry] else results
        let qs := expandNeighbors score (adj entryNode) (queue2, set)
        searchGo adj score entryNode ef includeRoot fuel qs.1 results2 qs.2 (visited + 1)

/-- Graph::search_level / search_level0 (graph.rs 322-388 / 390-456):
run the loop from the entry node (visited set seeded with it, queue
holding it with its score), then retain the top_k results and sort by
cmp_score. -/
def searchLevelList (fan : ℕ) (adj : ℕ → List ℕ) (score : ℕ → ℤ)
    (entry ef topk : ℕ) (includeRoot : Bool) : List (ℕ × ℤ) :=
  (insSort scoreLe
    (searchGo adj score entry ef includeRoot (ef + 1) [(entry, score entry)] []
      ((FixedSet.emptyS (next_pow2_u16 fan)).insertS entry) 0)).take topk

/-- Modelled from the spec: the loop of §4.6.3, "pop the best candidate
… compute scores for each of its neighbors not yet visited" — the
expansion reads the neighbors of the popped candidate, not of the
entry node. Stated only to compare with the implementation. -/
def searchGoSpec (adj : ℕ → List ℕ) (score : ℕ → ℤ) (ef : ℕ)
    (includeRoot : Bool) :
    ℕ → List (ℕ × ℤ) → List (ℕ × ℤ) → FixedSet → ℕ → List (ℕ × ℤ)
  | 0, _, results, _, _ => results
  | fuel + 1, queue, results, set, visited =>
    match popMax queue with
    | none => results
    | some (entry, queue2) =>
      if ef ≤ visited then results
      else
        let results2 := if includeRoot || (entry.1 != 0) then results ++ [entry] else results
        let qs := expandNeighbors score (adj entry.1) (queue2, set)
        searchGoSpec adj score ef includeRoot fuel qs.1 results2 qs.2 (visited + 1)

/-- Modelled from the spec: search_level with the spec's expansion rule. -/
def searchLevelListSpec (fan : ℕ) (adj : ℕ → List ℕ) (score : ℕ → ℤ)
    (entry ef topk : ℕ) (includeRoot : Bool) : List (ℕ × ℤ) :=
  (insSort scoreLe
    (searchGoSpec adj score ef includeRoot (ef + 1) [(entry, score entry)] []
      ((FixedSet.emptyS (next_pow2_u16 fan)).insertS entry) 0)).take topk

/-- Modelled from the spec: dot_product_f32 (imported by graph.rs from
the metric module, whose SIMD kernels are not under src): the dot
product of two equal-length vectors. -/
def dotProduct (a b : List ℚ) : ℚ := (List.zipWith (fun x y => x * y) a b).sum

/-- Observable state of a Graph for the search pipeline. adjU/childU
and scoreU describe the upper-level node arena (adjacency ids, child
handles, per-node quantized score of the fixed query under cmp_score);
adj0/score0/vec0 describe the level-0 arena (vec0 is the node's vector
handle); raw is the raw-vector arena; calcRaw models
DistanceMetric::calculate_raw (spec §4.3; the metric implementation
used by graph.rs is not under src), kept abstract as a field. -/
structure GraphE where
  levels : ℕ
  m : ℕ
  m0 : ℕ
  topRoot : ℕ
  adjU : ℕ → List ℕ
  childU : ℕ → ℕ
  scoreU : ℕ → ℤ
  adj0 : ℕ → List ℕ
  score0 : ℕ → ℤ
  vec0 : ℕ → ℕ
  raw : ℕ → List ℚ
  calcRaw : List ℚ → ℚ → List ℚ → ℚ → ℚ

/-- search_level over the upper-node arena (FixedSet fan-out m). -/
def searchLevelU (g : GraphE) (entry ef topk : ℕ) (ir : Bool) : List (ℕ × ℤ) :=
  searchLevelList g.m g.adjU g.scoreU entry ef topk ir

/-- search_level0 over the level-0 arena (FixedSet fan-out m0). -/
def searchLevel0F (g : GraphE) (entry ef topk : ℕ) (ir : Bool) : List (ℕ × ℤ) :=
  searchLevelList g.m0 g.adj0 g.score0 entry ef topk ir

/-- One step of the descent loop of search_quantized (graph.rs lines
268-272): run search_level with the caller's top_k, then follow
results[0].node's child; the unchecked results[0] of an empty slice is
modelled as none. -/
def descentStep (g : GraphE) (ef topk : ℕ) (oe : Option ℕ) : Option ℕ :=
  oe.bind fun e => ((searchLevelU g e ef topk true).head?).map fun r => g.childU r.1

/-- Entry node reached after the `for _ in 0..self.levels` descent of
search_quantized, starting from top_level_root_node. -/
def descentEntry (g : GraphE) (ef topk : ℕ) : Option ℕ :=
  (List.range g.levels).foldl (fun oe _ => descentStep g ef topk oe) (some g.topRoot)

/-- Graph::search_quantized (graph.rs lines 252-288): descend, then
search_level0 with include_root = false, then renumber each result to
NodeId = vec handle − 1 (subtraction on ℕ models the u32 subtraction;
every non-sentinel node has vec ≥ 1). -/
def searchQuantized (g : GraphE) (ef topk : ℕ) : Option (List (ℕ × ℤ)) :=
  (descentEntry g ef topk).map fun e0 =>
    (searchLevel0F g e0 ef topk false).map fun r => (g.vec0 r.1 - 1, r.2)

/-- Ascending comparator on reranked results (the cmp_score comparator
of graph.rs lines 311-315). -/
def scoreLeQ (a b : ℕ × ℚ) : Bool := decide (a.2 ≤ b.2)

/-- Graph::search (graph.rs lines 290-320): run search_quantized with
top_k × 8 retained candidates, rerank each candidate against its raw
vector via calculate_raw(query, mag_query, raw, mag_raw) with
mag_query = dot(query, query) and mag_raw = dot(raw, raw) (the raw
vector lives at handle + 1), then retain top_k and sort by cmp_score. -/
def searchG (g : GraphE) (query : List ℚ) (ef topk : ℕ) : Option (List (ℕ × ℚ)) :=
  (searchQuantized g ef (topk * 8)).map fun rq =>
    (insSort scoreLeQ
      (rq.map fun c =>
        (c.1, g.calcRaw query (dotProduct query query) (g.raw (c.1 + 1))
          (dotProduct (g.raw (c.1 + 1)) (g.raw (c.1 + 1)))))).take topk

/-- Concrete three-node path graph for the search counterexamples:
node 1 is adjacent to the entry 0, node 2 only to node 1; scores are
0, 5, 10 — so node 2 is the best-scoring node and is reachable in two
hops from the entry. -/
def cAdj : ℕ → List ℕ := fun n =>
  if n = 0 then [1] else if n = 1 then [0, 2] else if n = 2 then [1] else []

def cScore : ℕ → ℤ := fun n =>
  if n = 0 then 0 else if n = 1 then 5 else if n = 2 then 10 else 0

/-- C1 code bug, evaluated at the path graph: with ef = 10 (ample
budget), top_k = 3 and include_root = true the search returns only
nodes 0 and 1 — node 2, the best-scoring node, adjacent to the popped
candidate 1, is never scored or visited, because lines 359/427 of
graph.rs expand the neighbor list of the original entry node on every
iteration instead of the popped candidate's. The spec's loop (second
conjunct) does reach node 2. -/
theorem search_level_expands_entry_not_popped :
    (searchLevelList 2 cAdj cScore 0 10 3 true).map Prod.fst = [0, 1] ∧
    2 ∉ (searchLevelList 2 cAdj cScore 0 10 3 true).map Prod.fst ∧
    2 ∈ (searchLevelListSpec 2 cAdj cScore 0 10 3 true).map Prod.fst := by
  decide

/-- C2 code bug, evaluated at the path graph: the slice returned by
search_level is sorted ascending under cmp_score — the consecutive
pair (0, score 0) then (1, score 5) compares Less, where the claim
requires Equal or Greater (best first); and with top_k = 1 the
retained candidate is the worst-scoring one (score 0), not the best
(node 1, score 5). Graph::search applies the same
select_nth_unstable_by + truncate + sort_unstable_by with the same
comparator (graph.rs lines 308-315), so its slice is ordered the same
way. -/
theorem search_level_sorted_worst_first :
    searchLevelList 2 cAdj cScore 0 10 2 true = [(0, 0), (1, 5)] ∧
    compare (0 : ℤ) 5 = Ordering.lt ∧
    searchLevelList 2 cAdj cScore 0 10 1 true = [(0, 0)] ∧
    (1, (5 : ℤ)) ∈ searchLevelList 2 cAdj cScore 0 10 2 true ∧ (0 : ℤ) < 5 := by
  decide

theorem searchGo_length_mono (adj : ℕ → List ℕ) (score : ℕ → ℤ) (en ef : ℕ)
    (ir : Bool) :
    ∀ fuel queue results set visited,
    results.length ≤ (searchGo adj score en ef ir fuel queue results set visited).length := by
  intro fuel
  induction fuel with
  | zero =>
    intro queue results set visited
    rw [searchGo]
  | succ fuel ih =>
    intro queue results set visited
    rw [searchGo]
    cases hp : popMax queue with
    | none => exact le_refl _
    | some pr =>
      obtain ⟨entry, queue2⟩ := pr
      dsimp only
      by_cases hv : ef ≤ visited
      · rw [if_pos hv]
      · rw [if_neg hv]
        refine le_trans ?_ (ih _ _ _ _)
        split
        · simp
        · exact le_refl _

theorem searchLevel_nonempty (fan : ℕ) (adj : ℕ → List ℕ) (score : ℕ → ℤ)
    (entry ef topk : ℕ) (hef : 1 ≤ ef) (htk : 1 ≤ topk) :
    1 ≤ (searchLevelList fan adj score entry ef topk true).length := by
  rw [searchLevelList]
  rw [List.length_take, length_insSort]
  refine le_min htk ?_
  cases ef with
  | zero => omega
  | succ e =>
    rw [searchGo]
    have hpop : popMax [(entry, score entry)] = some ((entry, score entry), []) := rfl
    rw [hpop]
    dsimp only
    rw [if_neg (by omega)]
    rw [Bool.true_or]
    refine le_trans ?_ (searchGo_length_mono adj score entry (e + 1) true _ _ _ _ _)
    simp

theorem descentStep_isSome (g : GraphE) (ef topk : ℕ) (hef : 1 ≤ ef) (htk : 1 ≤ topk)
    (e : ℕ) : (descentStep g ef topk (some e)).isSome = true := by
  have h := searchLevel_nonempty g.m g.adjU g.scoreU e ef topk hef htk
  rw [descentStep]
  cases hl : searchLevelU g e ef topk true with
  | nil =>
    rw [searchLevelU] at hl
    rw [hl] at h
    simp at h
  | cons r rs => simp [hl]

/-- C10 counterexample: with ef = 1 (so the claim asserts a non-empty
slice) but top_k = 0, search_level with include_root = true returns
the empty slice — the selection truncates to top_k elements; so
Graph::search with top_k = 0 reaches results[0] on an empty slice in
search_quantized. -/
theorem search_level_empty_at_topk_zero :
    searchLevelList 2 cAdj cScore 0 1 0 true = [] := by
  decide

/-- C10 (amended): with include_root = true a search_level /
search_level0 call returns a non-empty slice when both ef ≥ 1 and
top_k ≥ 1 (so the results[0] accesses of index_level, whose descent
passes top_k = 1, and of search_quantized when its top_k ≥ 1, are in
bounds, and the whole descent produces an entry node); with ef = 0 the
returned slice is empty. -/
theorem search_level_nonempty_conditions :
    (∀ (fan : ℕ) (adj : ℕ → List ℕ) (score : ℕ → ℤ) (entry ef topk : ℕ),
      1 ≤ ef → 1 ≤ topk →
      1 ≤ (searchLevelList fan adj score entry ef topk true).length) ∧
    (∀ (fan : ℕ) (adj : ℕ → List ℕ) (score : ℕ → ℤ) (entry topk : ℕ),
      searchLevelList fan adj score entry 0 topk true = []) ∧
    (∀ (g : GraphE) (ef topk : ℕ), 1 ≤ ef → 1 ≤ topk →
      (descentEntry g ef topk).isSome = true) := by
  refine ⟨fun fan adj score entry ef topk hef htk =>
    searchLevel_nonempty fan adj score entry ef topk hef htk,
    ?_, ?_⟩
  · intro fan adj score entry topk
    rw [searchLevelList]
    have hgo : searchGo adj score entry 0 true (0 + 1) [(entry, score entry)] []
        ((FixedSet.emptyS (next_pow2_u16 fan)).insertS entry) 0 = [] := rfl
    rw [hgo]
    exact List.take_nil
  intro g ef topk hef htk
  rw [descentEntry]
  have haux : ∀ (l : List ℕ) (oe : Option ℕ), oe.isSome = true →
      (l.foldl (fun oe _ => descentStep g ef topk oe) oe).isSome = true := by
    intro l
    induction l with
    | nil => intro oe h; exact h
    | cons a l ih =>
      intro oe h
      rw [List.foldl_cons]
      cases oe with
      | none => exact Bool.noConfusion h
      | some e => exact ih _ (descentStep_isSome g ef topk hef htk e)
  exact haux _ _ rfl

/-- Witness for search_level_nonempty_conditions at the path graph. -/
theorem search_level_nonempty_conditions_witness :
    (1 ≤ (searchLevelList 2 cAdj cScore 0 1 1 true).length) ∧
    searchLevelList 2 cAdj cScore 0 0 5 true = [] := by
  exact ⟨search_level_nonempty_conditions.1 2 cAdj cScore 0 1 1 (by norm_num) (by norm_num),
    search_level_nonempty_conditions.2.1 2 cAdj cScore 0 5⟩

/-- Concrete graph instance over the path graph for the descent
theorems: one upper level, child handles all 0, empty raw vectors
(unused at upper levels). -/
def gEx : GraphE :=
  ⟨1, 2, 2, 0, cAdj, fun _ => 0, cScore, cAdj, cScore, fun n => n + 1,
    fun _ => [], fun _ _ _ _ => 0⟩

/-- C8 counterexample: search_quantized passes its own top_k (graph.rs
line 269) to every upper-level search_level call, not 1: at the path
graph with ef = 2 and top_k = 2 the upper-level slice consumed by the
descent step holds 2 retained candidates, not 1 (the second conjunct
is the descent step reading results[0] of exactly that slice). -/
theorem descent_slice_not_single :
    (searchLevelU gEx 0 2 2 true).length = 2 ∧
    descentStep gEx 2 2 (some 0) =
      ((searchLevelU gEx 0 2 2 true).head?).map (fun r => gEx.childU r.1) := by
  constructor
  · decide
  · rfl

/-- C8 (amended): the descent of search_quantized runs each upper-level
search with retained-candidate count top_k (the caller's argument, so
top_k × 8 inside Graph::search), not 1; but it only reads results[0],
and for top_k ≥ 1 the head of the retained slice does not depend on
the retained count, so every descent step — and the entry node the
descent produces — coincides with the single-best (top_k = 1) descent
used by insertion. (With top_k = 0 the slice is empty and the
results[0] access fails; see the C10 theorems.) -/
theorem descent_head_independent_of_topk (g : GraphE) (ef topk : ℕ) (h : 1 ≤ topk) :
    (∀ oe, descentStep g ef topk oe = descentStep g ef 1 oe) ∧
    descentEntry g ef topk = descentEntry g ef 1 := by
  have hstep : ∀ oe, descentStep g ef topk oe = descentStep g ef 1 oe := by
    intro oe
    cases oe with
    | none => rfl
    | some e =>
      show ((searchLevelU g e ef topk true).head?).map (fun r => g.childU r.1) =
        ((searchLevelU g e ef 1 true).head?).map (fun r => g.childU r.1)
      have hh : (searchLevelU g e ef topk true).head? =
          (searchLevelU g e ef 1 true).head? := by
        simp only [searchLevelU, searchLevelList]
        rw [List.head?_take, List.head?_take, if_neg (by omega), if_neg (by omega)]
      rw [hh]
  refine ⟨hstep, ?_⟩
  rw [descentEntry, descentEntry]
  have haux : ∀ (l : List ℕ) (oe : Option ℕ),
      l.foldl (fun oe _ => descentStep g ef topk oe) oe =
      l.foldl (fun oe _ => descentStep g ef 1 oe) oe := by
    intro l
    induction l with
    | nil => intro oe; rfl
    | cons a l ih =>
      intro oe
      rw [List.foldl_cons, List.foldl_cons, hstep]
      exact ih _
  exact haux _ _

/-- Witness for descent_head_independent_of_topk at the concrete graph
with top_k = 2. -/
theorem descent_head_independent_witness :
    (descentStep gEx 2 2 (some 0) = descentStep gEx 2 1 (some 0)) ∧
    descentEntry gEx 2 2 = descentEntry gEx 2 1 :=
  ⟨(descent_head_independent_of_topk gEx 2 2 (by norm_num)).1 (some 0),
    (descent_head_independent_of_topk gEx 2 2 (by norm_num)).2⟩

theorem searchQuantized_length_le (g : GraphE) (ef t : ℕ) (rq : List (ℕ × ℤ))
    (h : searchQuantized g ef t = some rq) : rq.length ≤ t := by
  rw [searchQuantized] at h
  cases hd : descentEntry g ef t with
  | none => rw [hd] at h; exact Option.noConfusion h
  | some e0 =>
    rw [hd, Option.map_some'] at h
    have h2 := Option.some.inj h
    rw [← h2, List.length_map, searchLevel0F, searchLevelList, List.length_take]
    exact min_le_left _ _

/-- C3: Graph::search with top_k < 8192 gathers its candidates from
search_quantized with retained-candidate count exactly top_k × 8 (so at
most top_k × 8 of them), rescores every returned candidate as
calculate_raw(query, mag_query, raw, mag_raw) with
mag_query = dot(query, query) and mag_raw = dot(raw, raw) over the
candidate's raw vector (stored at handle + 1), and returns at most
top_k results carrying exactly these raw-rescored score values. -/
theorem search_rerank_pipeline (g : GraphE) (query : List ℚ) (ef topk : ℕ)
    (_htk : topk < 8192) (res : List (ℕ × ℚ))
    (hres : searchG g query ef topk = some res) :
    ∃ rq, searchQuantized g ef (topk * 8) = some rq ∧
      rq.length ≤ topk * 8 ∧ res.length ≤ topk ∧
      ∀ r ∈ res, ∃ c ∈ rq, r.1 = c.1 ∧
        r.2 = g.calcRaw query (dotProduct query query) (g.raw (c.1 + 1))
          (dotProduct (g.raw (c.1 + 1)) (g.raw (c.1 + 1))) := by
  rw [searchG] at hres
  cases hq : searchQuantized g ef (topk * 8) with
  | none => rw [hq] at hres; exact Option.noConfusion hres
  | some rq =>
    rw [hq, Option.map_some'] at hres
    have hres2 := Option.some.inj hres
    refine ⟨rq, rfl, searchQuantized_length_le g ef (topk * 8) rq hq, ?_, ?_⟩
    · rw [← hres2, List.length_take]
      exact min_le_left _ _
    · intro r hr
      rw [← hres2] at hr
      have hr2 := List.mem_of_mem_take hr
      rw [mem_insSort] at hr2
      rcases List.mem_map.mp hr2 with ⟨c, hc, hce⟩
      refine ⟨c, hc, ?_, ?_⟩
      · rw [← hce]
      · rw [← hce]

/-- Degenerate graph instance (no upper levels, empty level-0 root
adjacency) used as the rerank-pipeline witness input. -/
def gW : GraphE :=
  ⟨0, 2, 2, 0, fun _ => [], fun _ => 0, fun _ => 0, fun _ => [], fun _ => 0,
    fun n => n + 1, fun _ => [], fun _ _ _ _ => 0⟩

/-- Witness for search_rerank_pipeline at gW with the empty query and
top_k = 1 (the search returns some [] there). -/
theorem search_rerank_pipeline_witness :
    (1 : ℕ) < 8192 ∧
    ∃ rq, searchQuantized gW 1 (1 * 8) = some rq ∧
      rq.length ≤ 1 * 8 ∧ ([] : List (ℕ × ℚ)).length ≤ 1 ∧
      ∀ r ∈ ([] : List (ℕ × ℚ)), ∃ c ∈ rq, r.1 = c.1 ∧
        r.2 = gW.calcRaw [] (dotProduct [] []) (gW.raw (c.1 + 1))
          (dotProduct (gW.raw (c.1 + 1)) (gW.raw (c.1 + 1))) :=
  ⟨by norm_num, search_rerank_pipeline gW [] 1 1 (by norm_num) [] rfl⟩

end VDB
